import Mathlib

/-!
Shallow embedding of the concatfs concatenation engine
(src/concatfs.c, src/poc_concatfs.c).

The engine is modelled over an abstract filesystem environment `Env`:
`statSize` is the result of `stat` (the `st_size` field, or `none` when
`stat` fails), `openRO` is the descriptor returned by
`open(path, O_RDONLY)` (`-1` on failure, exactly as in C), `readFile`
is the text content of a file as seen through `fopen`/`fdopen`,
`fdReadable fd` says whether `fdopen(dup(fd), "r")` succeeds for an
already-open descriptor, and `pread` is the positional read call.
Byte values are `Nat`, `off_t` values are `Int`, `size_t` counts are
`Nat`; the one place the C source converts `off_t` to `size_t`
(the loop guard and read length in `read_concat_file`) goes through
`toSizeT`, which performs the two's-complement reduction modulo 2^64.
Text content is modelled as NUL-free `List Char`.
-/

/-- Result of a `pread` call: either a byte vector (possibly shorter than
requested) or a failure carrying the `errno` value. -/
inductive PreadRes where
  | bytes (bs : List Nat)
  | err (errno : Int)
deriving DecidableEq

/-- `struct chunk` of concatfs.c (without the intrusive `next` pointer:
the chunk list is a `List Chunk`). -/
structure Chunk where
  fd : Int
  startOffset : Int
  fsize : Int
deriving DecidableEq

/-- `struct concat_file` of concatfs.c (without the intrusive `next`
pointer: the registry is a `List ConcatFile`). -/
structure ConcatFile where
  chunks : List Chunk
  fd : Int
  fsize : Int
  refcount : Int
deriving DecidableEq

/-- Abstract filesystem environment, fixed for the duration of a parse or
a read. -/
structure Env where
  statSize : String → Option Int
  openRO : String → Int
  readFile : String → Option (List Char)
  fdReadable : Int → Bool
  pread : Int → Nat → Int → PreadRes

/-- `OFF_T_MAX` of concatfs.c for 64-bit `off_t`. -/
def OFF_T_MAX : Int := 2 ^ 63 - 1

/-- The `off_t` → `size_t` implicit conversion of C (reduction modulo
2^64, then read as a natural number). -/
def toSizeT (x : Int) : Nat := (x % (2:Int) ^ 64).toNat

/-- Strip trailing slash characters, helper for `basename`/`dirname`. -/
def stripTrailingSlashes (l : List Char) : List Char :=
  (l.reverse.dropWhile (fun c => c == '/')).reverse

/-- POSIX `basename` (the glibc behaviour used via `libgen.h`). -/
def basename (p : String) : String :=
  let a := stripTrailingSlashes p.data
  if a.isEmpty then (if p.data.isEmpty then "." else "/")
  else String.mk (a.reverse.takeWhile (fun c => !(c == '/'))).reverse

/-- POSIX `dirname` (the glibc behaviour used via `libgen.h`). -/
def dirname (p : String) : String :=
  let a := stripTrailingSlashes p.data
  if a.isEmpty then (if p.data.isEmpty then "." else "/")
  else
    let base := (a.reverse.takeWhile (fun c => !(c == '/'))).reverse
    let pre := a.take (a.length - base.length)
    let b := stripTrailingSlashes pre
    if b.isEmpty then (if pre.isEmpty then "." else "/")
    else String.mk b

/-- `strstr(hay, needle) != 0`: substring containment on character
lists. -/
def listContains (needle : List Char) : List Char → Bool
  | [] => needle.isEmpty
  | c :: rest => needle.isPrefixOf (c :: rest) || listContains needle rest

/-- The marker substring that classifies a file as a concatenation
description. -/
def marker : List Char := "-concat-".data

/-- `is_concatfs_file` of src/concatfs.c: the marker is searched in
`basename(path)` only. -/
def is_concatfs_file (p : String) : Bool :=
  listContains marker (basename p).data

/-- `is_concatfs_file` of src/poc_concatfs.c: the marker is searched in
the whole path. -/
def poc_is_concatfs_file (p : String) : Bool :=
  listContains marker p.data

/-- The character class skipped by `sscanf` before a `%jd` conversion
(C `isspace`). -/
def isSpaceCh (c : Char) : Bool :=
  c == ' ' || c == '\t' || c == '\n' || c == '\r' ||
  c == Char.ofNat 11 || c == Char.ofNat 12

/-- Leading decimal digits of a string, or `none` when there are none. -/
def parseDigits (s : List Char) : Option Nat :=
  let ds := s.takeWhile (fun c => c.isDigit)
  if ds.isEmpty then none
  else some (ds.foldl (fun a c => a * 10 + (c.toNat - 48)) 0)

/-- `sscanf(s, "%jd", &x)`: skip whitespace, optional sign, then at
least one digit; `none` models a matching failure (the target is left
unchanged by `sscanf`). -/
def parseJd (s : List Char) : Option Int :=
  let t := s.dropWhile isSpaceCh
  match t with
  | '-' :: rest => (parseDigits rest).map (fun n => -(n : Int))
  | '+' :: rest => (parseDigits rest).map (fun n => (n : Int))
  | _ => (parseDigits t).map (fun n => (n : Int))

/-- The prefix of the line before the first colon.  This is the path the
C code stats and later opens: `try_parse_line_offsets` overwrites the
first `:` with a NUL terminator and deliberately never restores it. -/
def cutPath (line : List Char) : List Char :=
  line.takeWhile (fun c => !(c == ':'))

/-- `try_parse_line_offsets` of src/concatfs.c: parse
`[path]:[start]:[length]`, stat the path part, reject missing or
zero-size files, then clamp `start` to `[0, size-1]` and `length` to
`[1, size-start]`.  `s = -1` and `l = OFF_T_MAX` are the C locals left
in place when a `sscanf` conversion does not match. -/
def try_parse_line_offsets (env : Env) (line : List Char) : Option (Int × Int) :=
  if line.isEmpty then none
  else
    let path := cutPath line
    let hasColon := decide (path.length < line.length)
    match env.statSize (String.mk path) with
    | none => none
    | some sz =>
      if sz < 1 then none
      else
        let afterColon := line.drop (path.length + 1)
        let s0 : Int := if hasColon then (parseJd afterColon).getD (-1) else -1
        let l0 : Int :=
          if hasColon then
            if (cutPath afterColon).length < afterColon.length then
              (parseJd (afterColon.drop ((cutPath afterColon).length + 1))).getD OFF_T_MAX
            else OFF_T_MAX
          else OFF_T_MAX
        let s := min (sz - 1) (max s0 0)
        let l := min (sz - s) (max l0 1)
        some (s, l)

/-- Length of one `fgets` result on the remaining content: characters up
to and including the first newline, capped at `lim` (the C buffer holds
`PATH_MAX = 4096` characters plus the terminator). -/
def fgetsLen : List Char → Nat → Nat
  | [], _ => 0
  | _ :: _, 0 => 0
  | c :: rest, lim + 1 => if c == '\n' then 1 else 1 + fgetsLen rest lim

/-- Fuelled splitting of the description text into successive `fgets`
results. -/
def fgetsAux : Nat → List Char → List (List Char)
  | 0, _ => []
  | _ + 1, [] => []
  | fuel + 1, c :: rest =>
    let n := fgetsLen (c :: rest) 4096
    (c :: rest).take n :: fgetsAux fuel ((c :: rest).drop n)

/-- The sequence of lines the `while (fgets(...))` loop of
`open_concat_file` observes. -/
def fgetsLines (content : List Char) : List (List Char) :=
  fgetsAux content.length content

/-- Path resolution of one description line: absolute lines are used as
written, others are resolved against the directory of the description
file (`snprintf(tpath, ..., "%s/%s", base_dir, fpath)`). -/
def resolveLine (baseDir : List Char) (fpath : List Char) : List Char :=
  if fpath.head? = some '/' then fpath else baseDir ++ '/' :: fpath

/-- One iteration of the `while (fgets(...))` loop body of
`open_concat_file`: chop the final character of the raw line, resolve
the path, try to parse; on success add the length to the running total
and, when the parse was opened with a real descriptor (`fd >= 0`),
append a chunk whose descriptor is whatever `open(tpath, O_RDONLY)`
returned (the C code performs no error check on that descriptor). -/
def parseStep (env : Env) (baseDir : List Char) (acc : ConcatFile) (raw : List Char) : ConcatFile :=
  let fpath := raw.dropLast
  let tpath := resolveLine baseDir fpath
  match try_parse_line_offsets env tpath with
  | none => acc
  | some (s, l) =>
    { acc with
      fsize := acc.fsize + l,
      chunks := acc.chunks ++
        (if 0 ≤ acc.fd then [⟨env.openRO (String.mk (cutPath tpath)), s, l⟩] else []) }

/-- The `while (fgets(...))` loop of `open_concat_file`. -/
def parseLines (env : Env) (baseDir : List Char) : List (List Char) → ConcatFile → ConcatFile
  | [], acc => acc
  | r :: rs, acc => parseLines env baseDir rs (parseStep env baseDir acc r)

/-- `open_concat_file` of src/concatfs.c.  With `fd >= 0` the
description is read through `fdopen(dup(fd), "r")` (which can fail, in
which case the function returns `none` = NULL); with `fd < 0` it is
read through `fopen(path, "r")`. -/
def open_concat_file (env : Env) (fd : Int) (path : String) : Option ConcatFile :=
  let fp : Option (List Char) :=
    if 0 ≤ fd then (if env.fdReadable fd then env.readFile path else none)
    else env.readFile path
  match fp with
  | none => none
  | some content =>
    some (parseLines env (dirname path).data (fgetsLines content)
      { chunks := [], fd := fd, fsize := 0, refcount := 1 })

/-- `get_concat_file_size` of src/concatfs.c: size-only parse with the
sentinel descriptor `-1`; an unreadable description reports size 0. -/
def get_concat_file_size (env : Env) (path : String) : Int :=
  match open_concat_file env (-1) path with
  | none => 0
  | some c => c.fsize

/-- `open_files_find` of src/concatfs.c: first registered object with
the given descriptor (the list is searched from the head). -/
def open_files_find (files : List ConcatFile) (fd : Int) : Option ConcatFile :=
  files.find? (fun cf => cf.fd == fd)

/-- `open_files_push_front` of src/concatfs.c.  The C function begins
with `cf->next = open_files`; called with a NULL argument it
dereferences the null pointer, which is modelled as the `none`
outcome. -/
def open_files_push_front (files : List ConcatFile) (cf : Option ConcatFile) :
    Option (List ConcatFile) :=
  match cf with
  | some c => some (c :: files)
  | none => none

/-- `EINVAL` of errno.h. -/
def EINVAL : Int := 22

/-- The first loop of `read_concat_file`: skip whole chunks while
`offset > c->fsize`. -/
def skipChunks : List Chunk → Int → List Chunk × Int
  | [], off => ([], off)
  | c :: rest, off => if c.fsize < off then skipChunks rest (off - c.fsize) else (c :: rest, off)

/-- The second loop and the trailing read of `read_concat_file`.  While
the request covers more than the remainder of the current chunk, a full
positional read advances to the next chunk, a positive short read
terminates with the bytes accumulated so far, and a failed or empty
read aborts with `-errno` (`e0` is the thread's current `errno` value,
which the `rv == 0` branch of the C code returns without this call
having set it). -/
def readChunks (pread : Int → Nat → Int → PreadRes) (e0 : Int) :
    List Chunk → Nat → Int → Except Int (List Nat)
  | [], _, _ => .ok []
  | c :: rest, count, off =>
    if toSizeT (c.fsize - off) < count then
      match pread c.fd (toSizeT (c.fsize - off)) (off + c.startOffset) with
      | .err e => .error (-e)
      | .bytes bs =>
        if (bs.length : Int) = c.fsize - off then
          match readChunks pread e0 rest (count - bs.length) 0 with
          | .ok bs2 => .ok (bs ++ bs2)
          | .error e => .error e
        else if 0 < bs.length then .ok bs
        else .error (-e0)
    else if 0 < count then
      match pread c.fd count (off + c.startOffset) with
      | .err e => .error (-e)
      | .bytes bs => .ok bs
    else .ok []

/-- Body of `read_concat_file` after the registry lookup succeeded. -/
def read_object (env : Env) (e0 : Int) (cf : ConcatFile) (count : Nat) (offset : Int) :
    Except Int (List Nat) :=
  if cf.fsize < offset then .ok []
  else
    let p := skipChunks cf.chunks offset
    readChunks env.pread e0 p.1 count p.2

/-- `read_concat_file` of src/concatfs.c: registry lookup, then the
segmented read; a missing registration fails with `-EINVAL`. -/
def read_concat_file (env : Env) (e0 : Int) (files : List ConcatFile) (fd : Int)
    (count : Nat) (offset : Int) : Except Int (List Nat) :=
  match open_files_find files fd with
  | none => .error (-EINVAL)
  | some cf => read_object env e0 cf count offset

/-- Outcome of `concatfs_open`: success with the updated registry and
the file handle, an errno failure, or the null-pointer dereference
reached through `open_files_push_front(NULL)`. -/
inductive OpenOutcome where
  | ok (files : List ConcatFile) (fh : Int)
  | err (e : Int)
  | crash
deriving DecidableEq

/-- `concatfs_open` of src/concatfs.c.  `openResult` is the return value
of `open(fpath, fi->flags)` and `e0` the `errno` it left behind.  On a
virtual path the parse result is pushed onto the registry without a
null check. -/
def concatfs_open (env : Env) (files : List ConcatFile) (path fpath : String)
    (openResult : Int) (e0 : Int) : OpenOutcome :=
  if openResult < 0 then .err (-e0)
  else if is_concatfs_file path then
    match open_files_push_front files (open_concat_file env openResult fpath) with
    | some files2 => .ok files2 openResult
    | none => .crash
  else .ok files openResult

/-- Sum of the chunk sizes of a chunk list. -/
def sumF : List Chunk → Int
  | [] => 0
  | c :: rest => c.fsize + sumF rest

/-- The slice of the backing file a chunk denotes, given the contents of
the backing files indexed by descriptor. -/
def chunkBytes (content : Int → List Nat) (c : Chunk) : List Nat :=
  ((content c.fd).drop c.startOffset.toNat).take c.fsize.toNat

/-- Concatenation of the slices of a chunk list, in list order. -/
def chunksBytes (content : Int → List Nat) : List Chunk → List Nat
  | [] => []
  | c :: rest => chunkBytes content c ++ chunksBytes content rest

lemma try_parse_bounds (env : Env) (line : List Char) (s l : Int)
    (h : try_parse_line_offsets env line = some (s, l)) :
    ∃ sz, env.statSize (String.mk (cutPath line)) = some sz ∧ 1 ≤ sz ∧
      0 ≤ s ∧ s ≤ sz - 1 ∧ 1 ≤ l ∧ l ≤ sz - s := by
  unfold try_parse_line_offsets at h
  by_cases he : line.isEmpty
  · simp [he] at h
  · simp only [he, if_false] at h
    cases hst : env.statSize (String.mk (cutPath line)) with
    | none => rw [hst] at h; simp at h
    | some sz =>
      rw [hst] at h
      by_cases hlt : sz < 1
      · simp [hlt] at h
      · simp only [hlt, if_false, Option.some_inj, Prod.mk.injEq] at h
        obtain ⟨hs, hl⟩ := h
        exact ⟨sz, rfl, by omega, by omega, by omega, by omega⟩

lemma off_t_max_val : OFF_T_MAX = 9223372036854775807 := by norm_num [OFF_T_MAX]

/-- C4: every accepted line is clamped to `0 ≤ start ≤ size - 1` and
`1 ≤ length ≤ size - start`; a line `path:` (no numbers) yields start 0
and the full size, `path:5:` yields start 5 and length `size - 5`, and
`path::7` yields start 0 and length `min 7 size`; a missing start field
defaults to 0 and a missing length field to the remainder from start. -/
theorem c4_defaults_and_clamps (env : Env) (sz : Int)
    (hstat : env.statSize "/d/a" = some sz) (h1 : 1 ≤ sz) (hOT : sz ≤ OFF_T_MAX)
    (h6 : 6 ≤ sz) :
    (∀ line s l, try_parse_line_offsets env line = some (s, l) →
      ∃ szl, env.statSize (String.mk (cutPath line)) = some szl ∧ 1 ≤ szl ∧
        0 ≤ s ∧ s ≤ szl - 1 ∧ 1 ≤ l ∧ l ≤ szl - s) ∧
    try_parse_line_offsets env ("/d/a:".data) = some (0, sz) ∧
    try_parse_line_offsets env ("/d/a:5:".data) = some (5, sz - 5) ∧
    try_parse_line_offsets env ("/d/a::7".data) = some (0, min 7 sz) := by
  have hOTv : OFF_T_MAX = 9223372036854775807 := off_t_max_val
  refine ⟨fun line s l h => try_parse_bounds env line s l h, ?_, ?_, ?_⟩
  · have key : try_parse_line_offsets env ("/d/a:".data) =
        (match env.statSize "/d/a" with
         | none => none
         | some z => if z < 1 then none else
            some (min (z - 1) (max (-1) 0),
              min (z - min (z - 1) (max (-1) 0)) (max OFF_T_MAX 1))) := rfl
    rw [key, hstat]
    dsimp only
    rw [if_neg (show ¬ sz < 1 by omega)]
    simp only [Option.some_inj, Prod.mk.injEq]
    constructor <;> omega
  · have key : try_parse_line_offsets env ("/d/a:5:".data) =
        (match env.statSize "/d/a" with
         | none => none
         | some z => if z < 1 then none else
            some (min (z - 1) (max 5 0),
              min (z - min (z - 1) (max 5 0)) (max OFF_T_MAX 1))) := rfl
    rw [key, hstat]
    dsimp only
    rw [if_neg (show ¬ sz < 1 by omega)]
    simp only [Option.some_inj, Prod.mk.injEq]
    constructor <;> omega
  · have key : try_parse_line_offsets env ("/d/a::7".data) =
        (match env.statSize "/d/a" with
         | none => none
         | some z => if z < 1 then none else
            some (min (z - 1) (max (-1) 0),
              min (z - min (z - 1) (max (-1) 0)) (max 7 1))) := rfl
    rw [key, hstat]
    dsimp only
    rw [if_neg (show ¬ sz < 1 by omega)]
    simp only [Option.some_inj, Prod.mk.injEq]
    constructor <;> omega

def envC4 : Env :=
  { statSize := fun p => if p = "/d/a" then some 10 else none,
    openRO := fun _ => -1,
    readFile := fun _ => none,
    fdReadable := fun _ => false,
    pread := fun _ _ _ => .bytes [] }

/-- Witness for C4 at a backing file of size 10. -/
theorem c4_witness :
    (∀ line s l, try_parse_line_offsets envC4 line = some (s, l) →
      ∃ szl, envC4.statSize (String.mk (cutPath line)) = some szl ∧ 1 ≤ szl ∧
        0 ≤ s ∧ s ≤ szl - 1 ∧ 1 ≤ l ∧ l ≤ szl - s) ∧
    try_parse_line_offsets envC4 ("/d/a:".data) = some (0, 10) ∧
    try_parse_line_offsets envC4 ("/d/a:5:".data) = some (5, 10 - 5) ∧
    try_parse_line_offsets envC4 ("/d/a::7".data) = some (0, min 7 10) :=
  c4_defaults_and_clamps envC4 10 (by rfl) (by omega)
    (by rw [off_t_max_val]; omega) (by omega)

/-- C6 counterexample: under the poc_concatfs.c classifier a marker in a
directory component classifies the file as virtual even though the
basename contains no marker, so the claim that the result is true iff
the basename contains the marker fails on that implementation. -/
theorem c6_counterexample :
    poc_is_concatfs_file "/top-concat-dir/plain.txt" = true ∧
    listContains marker (basename "/top-concat-dir/plain.txt").data = false := by
  constructor <;> rfl

/-- C6 amended: the concatfs.c classifier is true iff the basename
contains the marker and hence depends only on the basename; the
poc_concatfs.c classifier instead searches the entire path. -/
theorem c6_classifier_amended (p q : String) (h : basename p = basename q) :
    is_concatfs_file p = is_concatfs_file q ∧
    (is_concatfs_file p = true ↔ listContains marker (basename p).data = true) ∧
    (poc_is_concatfs_file p = true ↔ listContains marker p.data = true) := by
  refine ⟨?_, Iff.rfl, Iff.rfl⟩
  unfold is_concatfs_file
  rw [h]

/-- Witness for C6 at two paths sharing the basename `f-concat-g`. -/
theorem c6_witness :
    is_concatfs_file "/a/f-concat-g" = is_concatfs_file "/b/f-concat-g" ∧
    (is_concatfs_file "/a/f-concat-g" = true ↔
      listContains marker (basename "/a/f-concat-g").data = true) ∧
    (poc_is_concatfs_file "/a/f-concat-g" = true ↔
      listContains marker "/a/f-concat-g".data = true) :=
  c6_classifier_amended "/a/f-concat-g" "/b/f-concat-g" (by rfl)

def envC3 : Env :=
  { statSize := fun p => if p = "/d/a" then some 3 else if p = "/d/" then some 4096 else none,
    openRO := fun _ => 7,
    readFile := fun p => if p = "/d/x-concat-y" then some ('a' :: '\n' :: '\n' :: []) else none,
    fdReadable := fun _ => true,
    pread := fun _ _ _ => .bytes [] }

/-- C3 (code bug): in the description `"a\n\n"` the blank line is
chopped to the empty string, resolved to `"/d/"`, and `stat` then
succeeds on the base directory itself (here with `st_size` 4096), so
the blank line adds the directory's stat size to the virtual total:
3 + 4096 = 4099 instead of the documented 3. -/
theorem c3_blank_line_contributes :
    get_concat_file_size envC3 "/d/x-concat-y" = 4099 ∧
    get_concat_file_size envC3 "/d/x-concat-y" ≠ 3 := by
  constructor
  · rfl
  · intro h
    simp only [show get_concat_file_size envC3 "/d/x-concat-y" = 4099 from rfl] at h
    omega

def envC7 : Env :=
  { statSize := fun _ => none,
    openRO := fun _ => -1,
    readFile := fun _ => some [],
    fdReadable := fun _ => false,
    pread := fun _ _ _ => .bytes [] }

/-- C7 (code bug): when the description file opens (descriptor 3) but
`fdopen(dup(fd), "r")` fails — as for an `O_WRONLY` open — the parse
returns NULL and `concatfs_open` passes it to `open_files_push_front`,
whose first statement dereferences the null pointer: the process
crashes instead of leaving a usable handle.  A read with no registered
object does fail with `-EINVAL`, as the claim's last part states. -/
theorem c7_open_crash :
    concatfs_open envC7 [] "/m/x-concat-y" "/src/m/x-concat-y" 3 0 = OpenOutcome.crash ∧
    read_concat_file envC7 0 [] 3 1 0 = .error (-22) := by
  constructor <;> rfl

def envC8 : Env :=
  { statSize := fun p => if p = "/d/a" then some 5 else none,
    openRO := fun _ => -1,
    readFile := fun p => if p = "/d/x-concat-y" then some ('a' :: '\n' :: []) else none,
    fdReadable := fun _ => true,
    pread := fun _ _ _ => .bytes [] }

/-- C8 counterexample: a line whose path stats with size 5 but whose
read-only open fails (`open` returns -1) is *not* skipped: the chunk is
appended with descriptor -1 and the total size still grows by 5. -/
theorem c8_counterexample :
    open_concat_file envC8 3 "/d/x-concat-y" =
      some { chunks := [{ fd := -1, startOffset := 0, fsize := 5 }],
             fd := 3, fsize := 5, refcount := 1 } := by
  rfl

/-- C8 amended: when a line parses but `open(tpath, O_RDONLY)` fails,
the loop body still appends a chunk — carrying the failed descriptor
-1 — and still adds the parsed length to the running total. -/
theorem c8_failed_open_amended (env : Env) (b : List Char) (acc : ConcatFile)
    (raw : List Char) (s l : Int)
    (hparse : try_parse_line_offsets env (resolveLine b raw.dropLast) = some (s, l))
    (hopen : env.openRO (String.mk (cutPath (resolveLine b raw.dropLast))) = -1)
    (hfd : 0 ≤ acc.fd) :
    parseStep env b acc raw =
      { acc with fsize := acc.fsize + l,
                 chunks := acc.chunks ++ [{ fd := -1, startOffset := s, fsize := l }] } := by
  simp [parseStep, hparse, hopen, hfd]

def envC8w : Env :=
  { statSize := fun p => if p = "/d/a" then some 5 else none,
    openRO := fun _ => -1,
    readFile := fun _ => none,
    fdReadable := fun _ => true,
    pread := fun _ _ _ => .bytes [] }

/-- Witness for the amended C8 at the line `"a\n"` resolved in `/d`. -/
theorem c8_witness :
    parseStep envC8w ("/d".data) { chunks := [], fd := 3, fsize := 0, refcount := 1 }
      ("a\n".data) =
      { chunks := [{ fd := -1, startOffset := 0, fsize := 5 }],
        fd := 3, fsize := 0 + 5, refcount := 1 } :=
  c8_failed_open_amended envC8w ("/d".data)
    { chunks := [], fd := 3, fsize := 0, refcount := 1 } ("a\n".data) 0 5
    (by rfl) (by rfl) (by decide)

lemma fgetsLen_no_newline (l : List Char) (lim : Nat)
    (hnl : ∀ c ∈ l, (c == '\n') = false) (hlen : l.length ≤ lim) :
    fgetsLen l lim = l.length := by
  induction l generalizing lim with
  | nil => cases lim <;> rfl
  | cons c rest ih =>
    cases lim with
    | zero => simp at hlen
    | succ m =>
      have hc := hnl c (by simp)
      have hrest : ∀ d ∈ rest, (d == '\n') = false := fun d hd => hnl d (by simp [hd])
      simp only [fgetsLen, hc, Bool.false_eq_true, if_false, List.length_cons]
      rw [ih m hrest (by simpa using hlen)]
      omega

lemma fgetsAux_nil (n : Nat) : fgetsAux n [] = [] := by
  cases n <;> rfl

/-- C10: the loop body of `open_concat_file` deletes the final character
of every raw line before resolving it — the processed line is
`raw.dropLast`, so the last character is completely ignored — and a
description whose last line is not newline-terminated hands that whole
line to the loop body (here: a newline-free description is a single
`fgets` result), whose final path character is therefore deleted. -/
theorem c10_chop_last_char (env : Env) (b : List Char) (acc : ConcatFile)
    (r : List Char) (x y : Char) (content : List Char)
    (hnl : ∀ c ∈ content, (c == '\n') = false) (hne : content ≠ [])
    (hlen : content.length ≤ 4096) :
    parseStep env b acc (r ++ [x]) = parseStep env b acc (r ++ [y]) ∧
    fgetsLines content = [content] := by
  constructor
  · simp [parseStep]
  · obtain ⟨c, rest, rfl⟩ := List.exists_cons_of_ne_nil hne
    show fgetsAux (rest.length + 1) (c :: rest) = [c :: rest]
    have hn : fgetsLen (c :: rest) 4096 = (c :: rest).length :=
      fgetsLen_no_newline (c :: rest) 4096 hnl hlen
    simp only [fgetsAux, hn, List.take_length, List.drop_length, fgetsAux_nil]

def envC10 : Env :=
  { statSize := fun _ => none,
    openRO := fun _ => -1,
    readFile := fun _ => none,
    fdReadable := fun _ => false,
    pread := fun _ _ _ => .bytes [] }

/-- Witness for C10: last characters `b` and `Z` of the raw line `"ab"`
are interchangeable, and the newline-free description `"xy"` is a
single fgets line. -/
theorem c10_witness :
    parseStep envC10 ("/d".data) { chunks := [], fd := -1, fsize := 0, refcount := 1 }
        ("ab".data) =
      parseStep envC10 ("/d".data) { chunks := [], fd := -1, fsize := 0, refcount := 1 }
        ("aZ".data) ∧
    fgetsLines ("xy".data) = ["xy".data] :=
  c10_chop_last_char envC10 ("/d".data)
    { chunks := [], fd := -1, fsize := 0, refcount := 1 }
    ("a".data) 'b' 'Z' ("xy".data) (by decide) (by decide) (by decide)

/-- The size contribution of one raw description line (independent of
the accumulator and of the descriptor mode). -/
def lineContrib (env : Env) (b : List Char) (raw : List Char) : Int :=
  match try_parse_line_offsets env (resolveLine b raw.dropLast) with
  | none => 0
  | some (_, l) => l

/-- Total size contribution of a list of raw lines. -/
def linesContrib (env : Env) (b : List Char) : List (List Char) → Int
  | [] => 0
  | r :: rs => lineContrib env b r + linesContrib env b rs

lemma parseStep_fsize (env : Env) (b : List Char) (acc : ConcatFile) (raw : List Char) :
    (parseStep env b acc raw).fsize = acc.fsize + lineContrib env b raw := by
  unfold parseStep lineContrib
  cases h : try_parse_line_offsets env (resolveLine b raw.dropLast) with
  | none => simp [h]
  | some sl => cases sl with | mk s l => simp [h]

lemma parseStep_fd (env : Env) (b : List Char) (acc : ConcatFile) (raw : List Char) :
    (parseStep env b acc raw).fd = acc.fd := by
  unfold parseStep
  cases h : try_parse_line_offsets env (resolveLine b raw.dropLast) with
  | none => simp [h]
  | some sl => cases sl with | mk s l => simp [h]

lemma parseStep_chunks_neg (env : Env) (b : List Char) (acc : ConcatFile) (raw : List Char)
    (hneg : acc.fd < 0) :
    (parseStep env b acc raw).chunks = acc.chunks := by
  unfold parseStep
  cases h : try_parse_line_offsets env (resolveLine b raw.dropLast) with
  | none => simp [h]
  | some sl =>
    cases sl with
    | mk s l => simp [h, show ¬ (0 ≤ acc.fd) by omega]

lemma parseLines_fsize (env : Env) (b : List Char) (lines : List (List Char))
    (acc : ConcatFile) :
    (parseLines env b lines acc).fsize = acc.fsize + linesContrib env b lines := by
  induction lines generalizing acc with
  | nil => simp [parseLines, linesContrib]
  | cons r rs ih =>
    simp only [parseLines, linesContrib]
    rw [ih, parseStep_fsize]
    omega

lemma parseLines_chunks_neg (env : Env) (b : List Char) (lines : List (List Char))
    (acc : ConcatFile) (hneg : acc.fd < 0) :
    (parseLines env b lines acc).chunks = acc.chunks := by
  induction lines generalizing acc with
  | nil => simp [parseLines]
  | cons r rs ih =>
    simp only [parseLines]
    rw [ih _ (by rw [parseStep_fd]; exact hneg), parseStep_chunks_neg _ _ _ _ hneg]

/-- C5: whenever the full open-time parse (descriptor mode, `fd ≥ 0`)
succeeds, the size-only parse used by metadata queries reports exactly
the same total virtual size, and it creates no chunks — hence opens no
backing descriptors. -/
theorem c5_size_only_matches (env : Env) (fd : Int) (path : String) (cf : ConcatFile)
    (hfd : 0 ≤ fd) (hopen : open_concat_file env fd path = some cf) :
    get_concat_file_size env path = cf.fsize ∧
    ∀ c, open_concat_file env (-1) path = some c → c.chunks = [] := by
  unfold open_concat_file at hopen
  simp only [hfd, if_pos, if_true] at hopen
  by_cases hr : env.fdReadable fd
  · simp only [hr, if_true] at hopen
    cases hc : env.readFile path with
    | none => rw [hc] at hopen; simp at hopen
    | some content =>
      rw [hc] at hopen
      simp only [Option.some_inj] at hopen
      constructor
      · unfold get_concat_file_size open_concat_file
        simp only [show ¬ ((0:Int) ≤ -1) by omega, if_false, hc]
        rw [← hopen]
        rw [parseLines_fsize, parseLines_fsize]
      · intro c hcopen
        unfold open_concat_file at hcopen
        simp only [show ¬ ((0:Int) ≤ -1) by omega, if_false, hc,
          Option.some_inj] at hcopen
        rw [← hcopen]
        exact parseLines_chunks_neg env _ _ _ (by decide)
  · simp [hr] at hopen

def envC5 : Env :=
  { statSize := fun p => if p = "/d/a" then some 5 else none,
    openRO := fun p => if p = "/d/a" then 9 else -1,
    readFile := fun p => if p = "/d/x-concat-y" then some ('a' :: '\n' :: []) else none,
    fdReadable := fun _ => true,
    pread := fun _ _ _ => .bytes [] }

/-- Witness for C5 on a one-line description of size 5. -/
theorem c5_witness :
    get_concat_file_size envC5 "/d/x-concat-y" =
      (ConcatFile.mk [Chunk.mk 9 0 5] 3 5 1).fsize ∧
    ∀ c, open_concat_file envC5 (-1) "/d/x-concat-y" = some c → c.chunks = [] :=
  c5_size_only_matches envC5 3 "/d/x-concat-y" (ConcatFile.mk [Chunk.mk 9 0 5] 3 5 1)
    (by omega) (by rfl)

/-- C9: when a positional read on the current segment returns a positive
byte count smaller than requested, the engine returns the bytes
accumulated so far — the earlier full segment's bytes plus the short
read — and the result does not depend on any later segment: no read is
issued past the short one (the tail `rest` is universally quantified,
so even segments whose reads would fail are never consulted). -/
theorem c9_short_read_terminal (pread : Int → Nat → Int → PreadRes) (e0 : Int)
    (c1 c2 : Chunk) (count : Nat) (off : Int) (bs1 bs2 : List Nat)
    (h1w : toSizeT (c1.fsize - off) < count)
    (h1p : pread c1.fd (toSizeT (c1.fsize - off)) (off + c1.startOffset) = .bytes bs1)
    (h1full : (bs1.length : Int) = c1.fsize - off)
    (h2w : toSizeT c2.fsize < count - bs1.length)
    (h2p : pread c2.fd (toSizeT c2.fsize) c2.startOffset = .bytes bs2)
    (h2pos : 0 < bs2.length)
    (h2ne : ¬ ((bs2.length : Int) = c2.fsize)) :
    ∀ rest : List Chunk,
      readChunks pread e0 (c1 :: c2 :: rest) count off = .ok (bs1 ++ bs2) := by
  intro rest
  have e2 : readChunks pread e0 (c2 :: rest) (count - bs1.length) 0 = .ok bs2 := by
    have hw : toSizeT (c2.fsize - 0) < count - bs1.length := by
      simpa using h2w
    have hp : pread c2.fd (toSizeT (c2.fsize - 0)) (0 + c2.startOffset) = .bytes bs2 := by
      simpa using h2p
    have hne : ¬ ((bs2.length : Int) = c2.fsize - 0) := by
      simpa using h2ne
    simp only [readChunks, if_pos hw, hp, if_neg hne, if_pos h2pos]
  have e1 : readChunks pread e0 (c1 :: c2 :: rest) count off =
      (match readChunks pread e0 (c2 :: rest) (count - bs1.length) 0 with
       | .ok bs2x => .ok (bs1 ++ bs2x)
       | .error e => .error e) := by
    conv_lhs => rw [readChunks]
    rw [if_pos h1w, h1p]
    dsimp only
    rw [if_pos h1full]
  rw [e1, e2]

def preadC9 : Int → Nat → Int → PreadRes :=
  fun f _ _ => if f = 1 then .bytes [7, 7] else .bytes [9]

/-- Witness for C9: chunk 1 (2 bytes) reads fully, chunk 2 (size 5)
returns a 1-byte short read, and the trailing chunk 3 is ignored. -/
theorem c9_witness :
    readChunks preadC9 0 (Chunk.mk 1 0 2 :: Chunk.mk 2 0 5 :: [Chunk.mk 3 0 9]) 10 0 =
      .ok ([7, 7] ++ [9]) :=
  c9_short_read_terminal preadC9 0 (Chunk.mk 1 0 2) (Chunk.mk 2 0 5) 10 0 [7, 7] [9]
    (by decide) (by decide) (by decide) (by decide) (by decide) (by decide) (by decide)
    [Chunk.mk 3 0 9]

def envC2 : Env :=
  { statSize := fun p => if p = "/d/a" then some 5 else none,
    openRO := fun _ => -1,
    readFile := fun p => if p = "/d/x-concat-y" then some ('a' :: '\n' :: []) else none,
    fdReadable := fun _ => true,
    pread := fun f _ _ => if f < 0 then .err 9 else .bytes [] }

/-- C2 counterexample: a registered virtual file built by the open-time
parse whose single segment's backing open failed (descriptor -1,
size 5).  A read of 1 byte at offset 5 = total_size reaches the loop,
issues a zero-length `pread` on the invalid descriptor, and returns the
error `-9` (`-EBADF`) instead of 0 bytes. -/
theorem c2_counterexample :
    open_concat_file envC2 3 "/d/x-concat-y" =
      some (ConcatFile.mk [Chunk.mk (-1) 0 5] 3 5 1) ∧
    read_concat_file envC2 0 [ConcatFile.mk [Chunk.mk (-1) 0 5] 3 5 1] 3 1 5 =
      .error (-9) := by
  constructor <;> rfl

lemma sumF_nonneg (cs : List Chunk) (h : ∀ c ∈ cs, 1 ≤ c.fsize) : 0 ≤ sumF cs := by
  induction cs with
  | nil => simp [sumF]
  | cons c rest ih =>
    have hc := h c (by simp)
    have hr := ih (fun x hx => h x (by simp [hx]))
    simp only [sumF]
    omega

lemma sumF_pos (cs : List Chunk) (h : ∀ c ∈ cs, 1 ≤ c.fsize) (hne : cs ≠ []) :
    1 ≤ sumF cs := by
  cases cs with
  | nil => exact absurd rfl hne
  | cons c rest =>
    have hc := h c (by simp)
    have hr := sumF_nonneg rest (fun x hx => h x (by simp [hx]))
    simp only [sumF]
    omega

lemma toSizeT_zero : toSizeT 0 = 0 := rfl

lemma readAtEnd (pread : Int → Nat → Int → PreadRes) (e0 : Int)
    (hzero : ∀ f o, pread f 0 o = PreadRes.bytes []) :
    ∀ (cs : List Chunk) (count : Nat) (off : Int),
      (∀ c ∈ cs, 1 ≤ c.fsize) → off = sumF cs →
      readChunks pread e0 (skipChunks cs off).1 count (skipChunks cs off).2 = .ok [] := by
  intro cs
  induction cs with
  | nil =>
    intro count off _ hoff
    simp [skipChunks, readChunks]
  | cons c rest ih =>
    intro count off hwf hoff
    simp only [sumF] at hoff
    by_cases hrest : rest = []
    · subst hrest
      simp only [sumF] at hoff
      have hnolt : ¬ (c.fsize < off) := by omega
      have hz : c.fsize - off = 0 := by omega
      simp only [skipChunks, if_neg hnolt]
      by_cases hcnt : 0 < count
      · have hguard : toSizeT (c.fsize - off) < count := by
          rw [hz, toSizeT_zero]; omega
        have hfull : ((([] : List Nat).length : Int)) = 0 := by simp
        conv_lhs => rw [readChunks]
        rw [if_pos hguard, hz, toSizeT_zero, hzero]
        dsimp only
        rw [if_pos hfull]
        rfl
      · have hc0 : count = 0 := by omega
        subst hc0
        conv_lhs => rw [readChunks]
        rw [if_neg (show ¬ toSizeT (c.fsize - off) < 0 by omega)]
        rw [if_neg (show ¬ 0 < 0 by omega)]
    · have hr1 : ∀ x ∈ rest, 1 ≤ x.fsize := fun x hx => hwf x (by simp [hx])
      have hpos : 1 ≤ sumF rest := sumF_pos rest hr1 hrest
      have hlt : c.fsize < off := by omega
      simp only [skipChunks, if_pos hlt]
      exact ih count (off - c.fsize) hr1 (by omega)

/-- C2 amended: for any registered virtual file object, a read at a
virtual offset strictly greater than total_size returns 0 bytes with no
error, unconditionally (the early `offset > cf->fsize` return fires
before any pread); a read at an offset equal to total_size also
returns 0 bytes provided the zero-length positional reads the loop then
issues all succeed (true whenever the backing descriptors are valid) —
with an invalid backing descriptor that case can instead surface an
error, as the counterexample shows. -/
theorem c2_eof_amended (env : Env) (e0 : Int) (files : List ConcatFile) (fd : Int)
    (cf : ConcatFile)
    (hfind : open_files_find files fd = some cf) :
    (∀ (count : Nat) (offset : Int), cf.fsize < offset →
      read_concat_file env e0 files fd count offset = .ok []) ∧
    (∀ count : Nat,
      (∀ c ∈ cf.chunks, 1 ≤ c.fsize) →
      cf.fsize = sumF cf.chunks →
      (∀ f o, env.pread f 0 o = PreadRes.bytes []) →
      read_concat_file env e0 files fd count cf.fsize = .ok []) := by
  constructor
  · intro count offset hlt
    unfold read_concat_file
    rw [hfind]
    unfold read_object
    simp [hlt]
  · intro count hwf hsum hzero
    unfold read_concat_file
    rw [hfind]
    unfold read_object
    have hnlt : ¬ (cf.fsize < cf.fsize) := by omega
    simp only [if_neg hnlt]
    exact readAtEnd env.pread e0 hzero cf.chunks count cf.fsize hwf hsum

def envC2w : Env :=
  { statSize := fun _ => none,
    openRO := fun _ => -1,
    readFile := fun _ => none,
    fdReadable := fun _ => true,
    pread := fun _ cnt _ => .bytes (List.replicate cnt 0) }

/-- Witness for the amended C2: one read past the end (offset 6 > 3,
with no condition on pread) and one at offset = total_size = 3 with
valid zero-length reads; both return 0 bytes. -/
theorem c2_witness :
    read_concat_file envC2w 0 [ConcatFile.mk [Chunk.mk 1 0 3] 5 3 1] 5 2 6 = .ok [] ∧
    read_concat_file envC2w 0 [ConcatFile.mk [Chunk.mk 1 0 3] 5 3 1] 5 2 3 = .ok [] :=
  ⟨(c2_eof_amended envC2w 0 [ConcatFile.mk [Chunk.mk 1 0 3] 5 3 1] 5
      (ConcatFile.mk [Chunk.mk 1 0 3] 5 3 1) (by rfl)).1 2 6 (by decide),
   (c2_eof_amended envC2w 0 [ConcatFile.mk [Chunk.mk 1 0 3] 5 3 1] 5
      (ConcatFile.mk [Chunk.mk 1 0 3] 5 3 1) (by rfl)).2 2 (by decide) (by rfl)
      (fun _ _ => rfl)⟩

lemma toSizeT_of_nonneg (x : Int) (h0 : 0 ≤ x) (h1 : x < 2 ^ 64) :
    toSizeT x = x.toNat := by
  unfold toSizeT
  rw [Int.emod_eq_of_lt h0 h1]

lemma two_pow_64_val : (2 : Int) ^ 64 = 18446744073709551616 := by norm_num

/-- Well-formedness of a chunk relative to the backing contents: offsets
within the C representable range and the denoted slice inside the
backing file. -/
def WFChunk (content : Int → List Nat) (c : Chunk) : Prop :=
  0 ≤ c.startOffset ∧ 0 ≤ c.fsize ∧ c.fsize ≤ OFF_T_MAX ∧
  c.startOffset.toNat + c.fsize.toNat ≤ (content c.fd).length

lemma length_drop_take (l : List Nat) (n m : Nat) (h : n + m ≤ l.length) :
    ((l.drop n).take m).length = m := by
  simp only [List.length_take, List.length_drop]
  omega

lemma chunkBytes_length (content : Int → List Nat) (c : Chunk)
    (h : c.startOffset.toNat + c.fsize.toNat ≤ (content c.fd).length) :
    (chunkBytes content c).length = c.fsize.toNat :=
  length_drop_take _ _ _ h

lemma chunksBytes_length (content : Int → List Nat) (cs : List Chunk)
    (hwf : ∀ c ∈ cs, WFChunk content c) :
    ((chunksBytes content cs).length : Int) = sumF cs := by
  induction cs with
  | nil => simp [chunksBytes, sumF]
  | cons c rest ih =>
    obtain ⟨hs0, hf0, _, hb⟩ := hwf c (by simp)
    have hrest := ih (fun x hx => hwf x (by simp [hx]))
    simp only [chunksBytes, List.length_append, sumF]
    rw [chunkBytes_length content c hb]
    push_cast
    omega

lemma drop_take_drop (l : List Nat) (s F o : Nat) :
    ((l.drop s).take F).drop o = (l.drop (s + o)).take (F - o) := by
  rw [List.drop_take, List.drop_drop]

lemma cons_read_big (A B : List Nat) (o cnt : Nat) (hoA : o ≤ A.length)
    (hbig : A.length - o < cnt) :
    A.drop o ++ B.take (cnt - (A.length - o)) = ((A ++ B).drop o).take cnt := by
  rw [List.drop_append_eq_append_drop, Nat.sub_eq_zero_of_le hoA, List.drop_zero,
    List.take_append_eq_append_take,
    List.take_of_length_le (l := A.drop o) (by simp only [List.length_drop]; omega)]
  congr 1
  simp only [List.length_drop]

lemma cons_read_small (A B : List Nat) (o cnt : Nat) (hoA : o ≤ A.length)
    (hsmall : cnt ≤ A.length - o) :
    (A.drop o).take cnt = ((A ++ B).drop o).take cnt := by
  rw [List.drop_append_eq_append_drop, Nat.sub_eq_zero_of_le hoA, List.drop_zero,
    List.take_append_eq_append_take]
  have hz : cnt - (A.drop o).length = 0 := by
    simp only [List.length_drop]
    omega
  rw [hz]
  simp

lemma toSizeT_within (x M : Int) (h0 : 0 ≤ x) (hM : x ≤ M) (hOT : M ≤ OFF_T_MAX) :
    toSizeT x = x.toNat := by
  apply toSizeT_of_nonneg x h0
  rw [two_pow_64_val]
  have := off_t_max_val
  omega

lemma readChunks_correct (pread : Int → Nat → Int → PreadRes) (e0 : Int)
    (content : Int → List Nat)
    (hp : ∀ f cnt o, pread f cnt o = PreadRes.bytes (((content f).drop o.toNat).take cnt)) :
    ∀ (cs : List Chunk) (count : Nat) (off : Int),
      (∀ c ∈ cs, WFChunk content c) →
      0 ≤ off →
      (∀ c, cs.head? = some c → off ≤ c.fsize) →
      (count : Int) + off ≤ sumF cs →
      readChunks pread e0 cs count off =
        .ok (((chunksBytes content cs).drop off.toNat).take count) := by
  intro cs
  induction cs with
  | nil =>
    intro count off _ hoff _ hcnt
    simp only [sumF] at hcnt
    have hc0 : count = 0 := by omega
    subst hc0
    simp [readChunks, chunksBytes]
  | cons c rest ih =>
    intro count off hwf hoff hhead hcnt
    obtain ⟨hs0, hf0, hfM, hb⟩ := hwf c (by simp)
    have hoffc : off ≤ c.fsize := hhead c rfl
    have hw : toSizeT (c.fsize - off) = (c.fsize - off).toNat :=
      toSizeT_within _ c.fsize (by omega) (by omega) hfM
    have hwfrest : ∀ x ∈ rest, WFChunk content x := fun x hx => hwf x (by simp [hx])
    simp only [sumF] at hcnt
    by_cases hguard : toSizeT (c.fsize - off) < count
    · have hguardN : (c.fsize - off).toNat < count := by rw [hw] at hguard; exact hguard
      have hbslen :
          (((content c.fd).drop (off + c.startOffset).toNat).take ((c.fsize - off).toNat)).length
            = (c.fsize - off).toNat := by
        apply length_drop_take
        omega
      have hheadrest : ∀ c', rest.head? = some c' → (0 : Int) ≤ c'.fsize := by
        intro c' hc'
        cases rest with
        | nil => exact absurd hc' (by simp)
        | cons d ds =>
          have hdc : d = c' := by simpa using hc'
          subst hdc
          exact (hwfrest d (by simp)).2.1
      have hcntrest :
          ((count - (c.fsize - off).toNat : Nat) : Int) + 0 ≤ sumF rest := by
        omega
      conv_lhs => rw [readChunks]
      rw [if_pos hguard, hw, hp]
      dsimp only
      rw [if_pos (show
        ((((content c.fd).drop (off + c.startOffset).toNat).take
            ((c.fsize - off).toNat)).length : Int) = c.fsize - off by rw [hbslen]; omega)]
      rw [hbslen]
      rw [ih (count - (c.fsize - off).toNat) 0 hwfrest (le_refl 0) hheadrest hcntrest]
      simp only [Int.toNat_zero, List.drop_zero]
      have e1 : (off + c.startOffset).toNat = c.startOffset.toNat + off.toNat := by omega
      have e2 : (c.fsize - off).toNat = c.fsize.toNat - off.toNat := by omega
      have hbs_eq :
          ((content c.fd).drop (off + c.startOffset).toNat).take ((c.fsize - off).toNat)
            = (chunkBytes content c).drop off.toNat := by
        unfold chunkBytes
        rw [drop_take_drop, e1, e2]
      rw [hbs_eq]
      rw [show count - (c.fsize - off).toNat
            = count - ((chunkBytes content c).length - off.toNat) by
        rw [chunkBytes_length content c hb]; omega]
      rw [cons_read_big (chunkBytes content c) (chunksBytes content rest) off.toNat count
        (by rw [chunkBytes_length content c hb]; omega)
        (by rw [chunkBytes_length content c hb]; omega)]
      rfl
    · have hguardN : count ≤ (c.fsize - off).toNat := by rw [hw] at hguard; omega
      by_cases hc0 : 0 < count
      · conv_lhs => rw [readChunks]
        rw [if_neg hguard, if_pos hc0, hp]
        dsimp only
        have e1 : (off + c.startOffset).toNat = c.startOffset.toNat + off.toNat := by omega
        have step1 :
            ((content c.fd).drop (off + c.startOffset).toNat).take count
              = ((chunkBytes content c).drop off.toNat).take count := by
          unfold chunkBytes
          rw [drop_take_drop, List.take_take, e1]
          congr 1
          omega
        rw [step1, cons_read_small (chunkBytes content c) (chunksBytes content rest)
          off.toNat count
          (by rw [chunkBytes_length content c hb]; omega)
          (by rw [chunkBytes_length content c hb]; omega)]
        rfl
      · have hcz : count = 0 := by omega
        subst hcz
        conv_lhs => rw [readChunks]
        rw [if_neg hguard, if_neg (show ¬ (0 < 0) by omega)]
        simp

lemma skipChunks_correct (content : Int → List Nat) :
    ∀ (cs : List Chunk) (off : Int),
      (∀ c ∈ cs, WFChunk content c) → 0 ≤ off → off ≤ sumF cs →
      (∀ c ∈ (skipChunks cs off).1, WFChunk content c) ∧
      0 ≤ (skipChunks cs off).2 ∧
      (∀ c, (skipChunks cs off).1.head? = some c → (skipChunks cs off).2 ≤ c.fsize) ∧
      sumF (skipChunks cs off).1 - (skipChunks cs off).2 = sumF cs - off ∧
      (chunksBytes content (skipChunks cs off).1).drop (skipChunks cs off).2.toNat =
        (chunksBytes content cs).drop off.toNat := by
  intro cs
  induction cs with
  | nil =>
    intro off _ h0 _
    simp only [skipChunks]
    refine ⟨by simp, h0, ?_, by trivial, by trivial⟩
    intro c hc
    simp at hc
  | cons c rest ih =>
    intro off hwf h0 hle
    obtain ⟨hs0, hf0, hfM, hb⟩ := hwf c (by simp)
    have hwfrest : ∀ x ∈ rest, WFChunk content x := fun x hx => hwf x (by simp [hx])
    by_cases hlt : c.fsize < off
    · simp only [skipChunks, if_pos hlt]
      have hle2 : off - c.fsize ≤ sumF rest := by
        simp only [sumF] at hle
        omega
      obtain ⟨ha, hb2, hc2, hd2, he2⟩ := ih (off - c.fsize) hwfrest (by omega) hle2
      refine ⟨ha, hb2, hc2, ?_, ?_⟩
      · simp only [sumF]
        omega
      · rw [he2]
        simp only [chunksBytes]
        rw [List.drop_append_eq_append_drop]
        rw [List.drop_of_length_le
          (show (chunkBytes content c).length ≤ off.toNat by
            rw [chunkBytes_length content c hb]; omega)]
        rw [chunkBytes_length content c hb]
        rw [show off.toNat - c.fsize.toNat = (off - c.fsize).toNat by omega]
        simp
    · simp only [skipChunks, if_neg hlt]
      refine ⟨hwf, h0, ?_, by trivial, by trivial⟩
      intro x hx
      have hcc : c = x := by simpa using hx
      subst hcc
      omega

lemma sumF_append (a b : List Chunk) : sumF (a ++ b) = sumF a + sumF b := by
  induction a with
  | nil => simp [sumF]
  | cons c rest ih =>
    show sumF (c :: (rest ++ b)) = sumF (c :: rest) + sumF b
    simp only [sumF]
    rw [ih]
    omega

/-- Parse-time well-formedness of a chunk: nonnegative start, positive
size, size within the `off_t` range. -/
def WFChunkP (c : Chunk) : Prop :=
  0 ≤ c.startOffset ∧ 1 ≤ c.fsize ∧ c.fsize ≤ OFF_T_MAX

lemma parseStep_inv (env : Env) (b : List Char) (acc : ConcatFile) (raw : List Char)
    (hstat : ∀ p sz, env.statSize p = some sz → sz ≤ OFF_T_MAX)
    (hfdp : 0 ≤ acc.fd)
    (hsum : acc.fsize = sumF acc.chunks) (hwf : ∀ c ∈ acc.chunks, WFChunkP c) :
    (parseStep env b acc raw).fsize = sumF (parseStep env b acc raw).chunks ∧
    ∀ c ∈ (parseStep env b acc raw).chunks, WFChunkP c := by
  cases h : try_parse_line_offsets env (resolveLine b raw.dropLast) with
  | none =>
    simp only [parseStep, h]
    exact ⟨hsum, hwf⟩
  | some sl =>
    cases sl with
    | mk s l =>
      obtain ⟨sz, hst, hsz1, hs0, hsle, hl1, hlle⟩ :=
        try_parse_bounds env (resolveLine b raw.dropLast) s l h
      have hszM : sz ≤ OFF_T_MAX := hstat _ _ hst
      simp only [parseStep, h]
      rw [if_pos hfdp]
      refine ⟨?_, ?_⟩
      · simp only [sumF_append, sumF]
        omega
      · intro x hx
        rcases List.mem_append.mp hx with hx | hx
        · exact hwf x hx
        · have hxe :
              x = ⟨env.openRO (String.mk (cutPath (resolveLine b raw.dropLast))), s, l⟩ := by
            simpa using hx
          subst hxe
          exact ⟨show (0:Int) ≤ s by omega, show (1:Int) ≤ l by omega,
            show l ≤ OFF_T_MAX by omega⟩

lemma parseLines_inv (env : Env) (b : List Char) (lines : List (List Char))
    (acc : ConcatFile)
    (hstat : ∀ p sz, env.statSize p = some sz → sz ≤ OFF_T_MAX)
    (hfdp : 0 ≤ acc.fd)
    (hsum : acc.fsize = sumF acc.chunks) (hwf : ∀ c ∈ acc.chunks, WFChunkP c) :
    (parseLines env b lines acc).fsize = sumF (parseLines env b lines acc).chunks ∧
    ∀ c ∈ (parseLines env b lines acc).chunks, WFChunkP c := by
  induction lines generalizing acc with
  | nil => exact ⟨hsum, hwf⟩
  | cons r rs ihl =>
    simp only [parseLines]
    obtain ⟨h1, h2⟩ := parseStep_inv env b acc r hstat hfdp hsum hwf
    exact ihl (parseStep env b acc r) (by rw [parseStep_fd]; exact hfdp) h1 h2

lemma open_concat_file_inv (env : Env) (fd : Int) (path : String) (cf : ConcatFile)
    (hstat : ∀ p sz, env.statSize p = some sz → sz ≤ OFF_T_MAX)
    (hfd : 0 ≤ fd)
    (hopen : open_concat_file env fd path = some cf) :
    cf.fsize = sumF cf.chunks ∧ ∀ c ∈ cf.chunks, WFChunkP c := by
  unfold open_concat_file at hopen
  simp only [hfd, if_pos, if_true] at hopen
  by_cases hr : env.fdReadable fd
  · simp only [hr, if_true] at hopen
    cases hc : env.readFile path with
    | none => rw [hc] at hopen; simp at hopen
    | some content =>
      rw [hc] at hopen
      simp only [Option.some_inj] at hopen
      rw [← hopen]
      exact parseLines_inv env _ _ _ hstat hfd (by simp [sumF]) (by simp)
  · simp [hr] at hopen

/-- C1: for a virtual file object built by a successful open-time parse,
and a request with `0 ≤ offset` and `offset + count ≤ total_size`, if
every positional read returns exactly the requested slice of the
backing contents (`hp`, with the accepted segments lying inside their
backing files, `hbound`), the segmented read returns exactly `count`
bytes, equal to the concatenation of the accepted segments' slices
taken in description order and indexed from `offset`. -/
theorem c1_read_full_correct (env : Env) (e0 : Int) (content : Int → List Nat)
    (fd : Int) (path : String) (cf : ConcatFile) (count : Nat) (offset : Int)
    (hopen : open_concat_file env fd path = some cf)
    (hfd : 0 ≤ fd)
    (hstat : ∀ p sz, env.statSize p = some sz → sz ≤ OFF_T_MAX)
    (hp : ∀ f cnt o, env.pread f cnt o = PreadRes.bytes (((content f).drop o.toNat).take cnt))
    (hbound : ∀ c ∈ cf.chunks, c.startOffset.toNat + c.fsize.toNat ≤ (content c.fd).length)
    (hoff : 0 ≤ offset)
    (hcnt : offset + (count : Int) ≤ cf.fsize) :
    read_object env e0 cf count offset =
      .ok (((chunksBytes content cf.chunks).drop offset.toNat).take count) ∧
    (((chunksBytes content cf.chunks).drop offset.toNat).take count).length = count := by
  obtain ⟨hsum, hwfP⟩ := open_concat_file_inv env fd path cf hstat hfd hopen
  have hwf : ∀ c ∈ cf.chunks, WFChunk content c := by
    intro c hc
    obtain ⟨h1, h2, h3⟩ := hwfP c hc
    exact ⟨h1, by omega, h3, hbound c hc⟩
  have hnlt : ¬ (cf.fsize < offset) := by omega
  have hle : offset ≤ sumF cf.chunks := by omega
  obtain ⟨hwf2, h02, hhead2, hsum2, hdrop2⟩ :=
    skipChunks_correct content cf.chunks offset hwf hoff hle
  constructor
  · simp only [read_object, if_neg hnlt]
    rw [readChunks_correct env.pread e0 content hp _ count _ hwf2 h02 hhead2 (by omega)]
    rw [hdrop2]
  · have hlenI : ((chunksBytes content cf.chunks).length : Int) = sumF cf.chunks :=
      chunksBytes_length content cf.chunks hwf
    simp only [List.length_take, List.length_drop]
    omega

def contentC1 : Int → List Nat :=
  fun f => if f = 1 then [10, 11, 12] else if f = 2 then [20, 21] else []

def envC1 : Env :=
  { statSize := fun p => if p = "/d/a" then some 3 else if p = "/d/b" then some 2 else none,
    openRO := fun p => if p = "/d/a" then 1 else if p = "/d/b" then 2 else -1,
    readFile := fun p =>
      if p = "/d/x-concat-y" then some ('a' :: '\n' :: 'b' :: '\n' :: []) else none,
    fdReadable := fun _ => true,
    pread := fun f cnt o => .bytes (((contentC1 f).drop o.toNat).take cnt) }

/-- Witness for C1: three bytes read across the segment boundary at
offset 1 of the two-segment file built from `"a\nb\n"`. -/
theorem c1_witness :
    read_object envC1 0 (ConcatFile.mk [Chunk.mk 1 0 3, Chunk.mk 2 0 2] 3 5 1) 3 1 =
      .ok (((chunksBytes contentC1
        (ConcatFile.mk [Chunk.mk 1 0 3, Chunk.mk 2 0 2] 3 5 1).chunks).drop
          (1 : Int).toNat).take 3) ∧
    (((chunksBytes contentC1
        (ConcatFile.mk [Chunk.mk 1 0 3, Chunk.mk 2 0 2] 3 5 1).chunks).drop
          (1 : Int).toNat).take 3).length = 3 :=
  c1_read_full_correct envC1 0 contentC1 3 "/d/x-concat-y"
    (ConcatFile.mk [Chunk.mk 1 0 3, Chunk.mk 2 0 2] 3 5 1) 3 1
    (by rfl) (by omega)
    (by
      intro p sz h
      rw [off_t_max_val]
      by_cases h1 : p = "/d/a"
      · simp [envC1, h1] at h
        omega
      · by_cases h2 : p = "/d/b"
        · simp [envC1, h1, h2] at h
          omega
        · simp [envC1, h1, h2] at h)
    (fun _ _ _ => rfl)
    (by decide)
    (by omega)
    (by decide)
